import Mathlib

/-!
Verification of the trace correlation and segmentation engine of
dev-agent-lens (scripts/compare_spans.py, scripts/src/query_traces.py,
scripts/src/reconstruct_sessions.py, scripts/analyze_sessions.py).

The Python data values flowing through the engine (JSON-decoded records)
are modelled by the inductive type `PyVal`; Python's `str()`, `json.dumps
(sort_keys=True)`, the substring test `pat in s` and `s.split(pat)[-1]`
are modelled by executable Lean functions on `String`/`List Char`.
-/

/-- A JSON-decoded Python value: `None`, `str`, `int`, `list` or `dict`
(dicts keep their insertion order, as Python dicts do). -/
inductive PyVal where
  | pnone
  | pstr (s : String)
  | pint (n : Int)
  | plist (xs : List PyVal)
  | pdict (fields : List (String × PyVal))

/-- Python truthiness (`bool(v)`) for the modelled values: `None`, `""`,
`0`, `[]` and an empty dict are falsy, everything else is truthy. -/
def truthy : PyVal → Bool
  | .pnone => false
  | .pstr s => !(s == "")
  | .pint n => !(n == 0)
  | .plist xs => !xs.isEmpty
  | .pdict fs => !fs.isEmpty

/-- Substring occurrence on character lists: true iff `pat` occurs as a
contiguous sublist. Models Python's `pat in s` for strings. -/
def containsSub (pat : List Char) : List Char → Bool
  | [] => pat.isEmpty
  | c :: rest => pat.isPrefixOf (c :: rest) || containsSub pat rest

/-- Python's `pat in s` on strings. -/
def strContains (s pat : String) : Bool := containsSub pat.data s.data

/-- Ingredient of `py_split_last`: scans left to right; on a match skips
the matched pattern, otherwise keeps scanning, and once no further match
exists returns the remaining characters. The `Nat` argument is fuel that
is never exhausted when it starts at the list length (each step strictly
shortens the list); it only makes the recursion structural. -/
def splitTailF (pat : List Char) : Nat → List Char → List Char
  | 0, l => l
  | _, [] => []
  | f + 1, c :: rest =>
    if pat.isPrefixOf (c :: rest) then
      splitTailF pat f (rest.drop (pat.length - 1))
    else if containsSub pat rest then
      splitTailF pat f rest
    else
      c :: rest

/-- Python's `s.split(pat)[-1]` for a non-empty pattern: the substring
after the last (left-to-right, non-overlapping) occurrence of `pat`, or
all of `s` when `pat` does not occur. -/
def py_split_last (s pat : String) : String :=
  String.mk (splitTailF pat.data s.data.length s.data)

/-- Code-point order on character lists (lexicographic); kernel-evaluable
model of Python's and Lean's string order. -/
def charsLe : List Char → List Char → Bool
  | [], _ => true
  | _ :: _, [] => false
  | a :: as, b :: bs => if a = b then charsLe as bs else decide (a.toNat < b.toNat)

/-- Code-point order on strings, as used by `sorted()`/`sort_keys=True`. -/
def strLeB (a b : String) : Bool := charsLe a.data b.data

/-- Order on (key, rendered-field) pairs by key, used by the JSON dict
serialization. -/
def pairLe (a b : String × String) : Prop := strLeB a.1 b.1 = true

instance : DecidableRel pairLe := fun a b => instDecidableEqBool (strLeB a.1 b.1) true

/-- Sort rendered dict fields by key (`json.dumps(..., sort_keys=True)`). -/
def sortPairs (l : List (String × String)) : List (String × String) :=
  List.insertionSort pairLe l

/-- Double-quote a string, as the JSON serializer does (escaping inside
string payloads is not modelled; payload equality is unaffected). -/
def jquote (s : String) : String := "\"" ++ s ++ "\""

/-- Model of `json.dumps(v, sort_keys=True)`: dict fields are rendered in
place and then sorted by key, so structurally identical dicts serialize
identically regardless of field order. -/
def dumps : PyVal → String
  | .pnone => "null"
  | .pstr s => jquote s
  | .pint n => toString n
  | .plist xs => "[" ++ String.intercalate ", " (renderList xs) ++ "]"
  | .pdict fs =>
    "\x7b" ++ String.intercalate ", " ((sortPairs (renderFields fs)).map Prod.snd) ++ "\x7d"
where
  renderList : List PyVal → List String
    | [] => []
    | v :: vs => dumps v :: renderList vs
  renderFields : List (String × PyVal) → List (String × String)
    | [] => []
    | (k, v) :: fs => (k, jquote k ++ ": " ++ dumps v) :: renderFields fs

/-- Single-quote a string, as Python's `repr` does. -/
def squote (s : String) : String :=
  String.singleton (Char.ofNat 39) ++ s ++ String.singleton (Char.ofNat 39)

/-- Model of Python's `repr(v)` for the modelled values (container
elements are rendered with `repr`, keeping dict insertion order). -/
def pyRepr : PyVal → String
  | .pnone => "None"
  | .pstr s => squote s
  | .pint n => toString n
  | .plist xs => "[" ++ String.intercalate ", " (reprList xs) ++ "]"
  | .pdict fs => "\x7b" ++ String.intercalate ", " (reprFields fs) ++ "\x7d"
where
  reprList : List PyVal → List String
    | [] => []
    | v :: vs => pyRepr v :: reprList vs
  reprFields : List (String × PyVal) → List String
    | [] => []
    | (k, v) :: fs => (squote k ++ ": " ++ pyRepr v) :: reprFields fs

/-- Model of Python's `str(v)`: identity on strings, `repr` otherwise. -/
def pyStr : PyVal → String
  | .pstr s => s
  | v => pyRepr v

/-- Is the value a Python dict? (`isinstance(v, dict)`). -/
def isDict : PyVal → Bool
  | .pdict _ => true
  | _ => false

/-- The canonical comparable form used by compare_spans.py on each
message: `json.dumps(m, sort_keys=True) if isinstance(m, dict) else
str(m)`. -/
def toComparable (v : PyVal) : String :=
  match v with
  | .pdict fs => dumps (.pdict fs)
  | v => pyStr v

/-- Result record of `compare_messages` (compare_spans.py). -/
structure CompareResult where
  total_previous : Nat
  total_current : Nat
  duplicated_count : Nat
  new_count : Nat
  overlap_percentage : ℚ
  duplicated_messages : List String
  new_messages : List String

/-- `compare_messages(msg1, msg2)` from compare_spans.py: canonicalize
both lists, count elements of `msg1` appearing in `msg2` (duplicates) and
elements of `msg2` absent from `msg1` (new), and report
`overlap = duplicated / len(msg2) * 100` (0 when `msg2` is empty). A
`None` message list is passed as `[]` (the `or []` guard). -/
def compare_messages (msg1 msg2 : List PyVal) : CompareResult :=
  let msg1_str := msg1.map toComparable
  let msg2_str := msg2.map toComparable
  let duplicates := msg1_str.filter (fun m => msg2_str.contains m)
  let new_msgs := msg2_str.filter (fun m => !(msg1_str.contains m))
  { total_previous := msg1_str.length
    total_current := msg2_str.length
    duplicated_count := duplicates.length
    new_count := new_msgs.length
    overlap_percentage :=
      if msg2_str.isEmpty then 0
      else (duplicates.length : ℚ) / (msg2_str.length : ℚ) * 100
    duplicated_messages := duplicates
    new_messages := new_msgs }

/-- Result record of `check_complete_containment` (compare_spans.py). -/
structure ContainResult where
  is_complete_subset : Bool
  total_earlier : Nat
  contained_count : Nat
  missing_count : Nat
  containment_percentage : ℚ
  missing_messages : List String

/-- `check_complete_containment(earlier, later)` from compare_spans.py:
canonicalize both lists; `is_complete_subset` iff nothing from `earlier`
is missing in `later` and `earlier` is non-empty. -/
def check_complete_containment (earlier_msgs later_msgs : List PyVal) : ContainResult :=
  let earlier_str := earlier_msgs.map toComparable
  let later_str := later_msgs.map toComparable
  let contained := earlier_str.filter (fun m => later_str.contains m)
  let missing := earlier_str.filter (fun m => !(later_str.contains m))
  { is_complete_subset := decide (missing.length = 0) && decide (0 < earlier_str.length)
    total_earlier := earlier_str.length
    contained_count := contained.length
    missing_count := missing.length
    containment_percentage :=
      if earlier_str.isEmpty then 0
      else (contained.length : ℚ) / (earlier_str.length : ℚ) * 100
    missing_messages := missing }

/-! ### Helper lemmas about the diff analyzer -/

lemma contains_eq_true_iff (l : List String) (m : String) : l.contains m = true ↔ m ∈ l :=
  List.elem_iff

lemma cm_duplicated_count_def (m1 m2 : List PyVal) :
    (compare_messages m1 m2).duplicated_count =
      ((m1.map toComparable).filter (fun m => (m2.map toComparable).contains m)).length := rfl

lemma cm_new_count_def (m1 m2 : List PyVal) :
    (compare_messages m1 m2).new_count =
      ((m2.map toComparable).filter (fun m => !((m1.map toComparable).contains m))).length := rfl

lemma cm_overlap_percentage_def (m1 m2 : List PyVal) :
    (compare_messages m1 m2).overlap_percentage =
      if (m2.map toComparable).isEmpty then 0
      else (((m1.map toComparable).filter
              (fun m => (m2.map toComparable).contains m)).length : ℚ) /
        ((m2.map toComparable).length : ℚ) * 100 := rfl

lemma ccc_is_complete_subset_def (e l : List PyVal) :
    (check_complete_containment e l).is_complete_subset =
      (decide (((e.map toComparable).filter
                 (fun m => !((l.map toComparable).contains m))).length = 0) &&
       decide (0 < (e.map toComparable).length)) := rfl

lemma ccc_containment_percentage_def (e l : List PyVal) :
    (check_complete_containment e l).containment_percentage =
      if (e.map toComparable).isEmpty then 0
      else (((e.map toComparable).filter
              (fun m => (l.map toComparable).contains m)).length : ℚ) /
        ((e.map toComparable).length : ℚ) * 100 := rfl

/-- The first message of the spec's end-to-end diff scenario. -/
def msgHi : PyVal := .pdict [("role", .pstr "user"), ("content", .pstr "hi")]

/-- The second message of the spec's end-to-end diff scenario. -/
def msgHello : PyVal := .pdict [("role", .pstr "assistant"), ("content", .pstr "hello")]

/-- C4: for `earlier = [{"role":"user","content":"hi"}]` and
`later = [{"role":"user","content":"hi"}, {"role":"assistant","content":"hello"}]`,
`compare_messages` reports overlap 1, new 1, overlap percentage 50, and
`check_complete_containment` reports complete containment of the first
list in the second. -/
theorem c4_end_to_end_diff_example :
    (compare_messages [msgHi] [msgHi, msgHello]).duplicated_count = 1 ∧
    (compare_messages [msgHi] [msgHi, msgHello]).new_count = 1 ∧
    (compare_messages [msgHi] [msgHi, msgHello]).overlap_percentage = 50 ∧
    (check_complete_containment [msgHi] [msgHi, msgHello]).is_complete_subset = true := by
  refine ⟨by decide, by decide, ?_, by decide⟩
  have hnum : ((([msgHi] : List PyVal).map toComparable).filter
      (fun m => (([msgHi, msgHello] : List PyVal).map toComparable).contains m)).length = 1 := by
    decide
  have hden : (([msgHi, msgHello] : List PyVal).map toComparable).length = 2 := by decide
  rw [cm_overlap_percentage_def, if_neg (by decide), hnum, hden]
  norm_num

/-- C5: `check_complete_containment(S, S)` is fully contained (with 100%
containment) for every non-empty `S`, and `check_complete_containment([], S)`
is never fully contained. -/
theorem c5_self_containment_and_empty_earlier :
    (∀ S : List PyVal, S ≠ [] →
      (check_complete_containment S S).is_complete_subset = true ∧
      (check_complete_containment S S).containment_percentage = 100) ∧
    (∀ S : List PyVal, (check_complete_containment [] S).is_complete_subset = false) := by
  constructor
  · intro S hS
    have hmapne : S.map toComparable ≠ [] := by
      simpa [List.map_eq_nil_iff] using hS
    have hmiss : (S.map toComparable).filter
        (fun m => !((S.map toComparable).contains m)) = [] := by
      apply List.filter_eq_nil_iff.mpr
      intro a ha
      have hc : (S.map toComparable).contains a = true := (contains_eq_true_iff _ _).mpr ha
      rw [hc]
      simp
    have hcont : (S.map toComparable).filter
        (fun m => (S.map toComparable).contains m) = S.map toComparable := by
      apply List.filter_eq_self.mpr
      intro a ha
      exact (contains_eq_true_iff _ _).mpr ha
    refine ⟨?_, ?_⟩
    · rw [ccc_is_complete_subset_def, hmiss]
      simp [List.length_pos, hS]
    · rw [ccc_containment_percentage_def, if_neg (by simp [hS]), hcont]
      have hne : ((S.map toComparable).length : ℚ) ≠ 0 := by
        simp [hS]
      rw [div_self hne, one_mul]
  · intro S
    rw [ccc_is_complete_subset_def]
    simp

/-- Witness for C5 at the concrete non-empty sequence `["a"]`. -/
theorem c5_self_containment_and_empty_earlier_witness :
    ([PyVal.pstr "a"] ≠ ([] : List PyVal)) ∧
    (check_complete_containment [PyVal.pstr "a"] [PyVal.pstr "a"]).is_complete_subset = true :=
  ⟨by simp, (c5_self_containment_and_empty_earlier.1 [PyVal.pstr "a"] (by simp)).1⟩

/-- C9 counterexample: with `earlier = ["a"]` and `later = ["a"]`,
appending the element `"a"` of `earlier` to `later` drops the reported
overlap percentage from 100 to 50, so `overlap_percentage` is not
monotonically non-decreasing under such appends. -/
theorem c9_percentage_monotonicity_cex :
    PyVal.pstr "a" ∈ ([PyVal.pstr "a"] : List PyVal) ∧
    (compare_messages [PyVal.pstr "a"] ([PyVal.pstr "a"] ++ [PyVal.pstr "a"])).overlap_percentage
      < (compare_messages [PyVal.pstr "a"] [PyVal.pstr "a"]).overlap_percentage := by
  refine ⟨by simp, ?_⟩
  simp only [List.singleton_append]
  have h1 : ((([PyVal.pstr "a"] : List PyVal).map toComparable).filter
      (fun m => (([PyVal.pstr "a", PyVal.pstr "a"] : List PyVal).map toComparable).contains m)).length
      = 1 := by decide
  have h1' : ((([PyVal.pstr "a"] : List PyVal).map toComparable).filter
      (fun m => (([PyVal.pstr "a"] : List PyVal).map toComparable).contains m)).length = 1 := by
    decide
  have h2 : (([PyVal.pstr "a", PyVal.pstr "a"] : List PyVal).map toComparable).length = 2 := by
    decide
  have h3 : (([PyVal.pstr "a"] : List PyVal).map toComparable).length = 1 := by decide
  rw [cm_overlap_percentage_def, cm_overlap_percentage_def, if_neg (by decide),
    if_neg (by decide), h1, h1', h2, h3]
  norm_num

/-- C9 amended: the overlap count (`duplicated_count`) is monotonically
non-decreasing as elements are appended to `later` with `earlier`
unchanged; the percentage itself can decrease because the denominator
`len(later)` grows. -/
theorem c9_overlap_count_monotone (earlier later : List PyVal) (x : PyVal) :
    (compare_messages earlier later).duplicated_count ≤
      (compare_messages earlier (later ++ [x])).duplicated_count := by
  rw [cm_duplicated_count_def, cm_duplicated_count_def,
    ← List.countP_eq_length_filter, ← List.countP_eq_length_filter]
  apply List.countP_mono_left
  intro a _ ha
  have hmem : a ∈ later.map toComparable := (contains_eq_true_iff _ _).mp ha
  apply (contains_eq_true_iff _ _).mpr
  rw [List.map_append]
  exact List.mem_append_left _ hmem

/-- C10: the overlap count of `compare_messages` counts multiplicity over
`earlier` only — it is invariant under changing the multiset of `later`
so long as the set of canonical forms is unchanged, each of the `k`
copies of an element of `earlier` present in `later` contributes 1, and
consequently `earlier = [m, m]`, `later = [m]` reports an overlap
percentage of 200, exceeding 100. -/
theorem c10_overlap_counts_earlier_multiplicity :
    (∀ (earlier l₁ l₂ : List PyVal),
        (∀ s : String, s ∈ l₁.map toComparable ↔ s ∈ l₂.map toComparable) →
        (compare_messages earlier l₁).duplicated_count =
          (compare_messages earlier l₂).duplicated_count) ∧
    (∀ (v : PyVal) (k : Nat) (later : List PyVal),
        toComparable v ∈ later.map toComparable →
        (compare_messages (List.replicate k v) later).duplicated_count = k) ∧
    (compare_messages [msgHi, msgHi] [msgHi]).overlap_percentage = 200 ∧
    (100 : ℚ) < (compare_messages [msgHi, msgHi] [msgHi]).overlap_percentage := by
  have h200 : (compare_messages [msgHi, msgHi] [msgHi]).overlap_percentage = 200 := by
    have hnum : ((([msgHi, msgHi] : List PyVal).map toComparable).filter
        (fun m => (([msgHi] : List PyVal).map toComparable).contains m)).length = 2 := by decide
    have hden : (([msgHi] : List PyVal).map toComparable).length = 1 := by decide
    rw [cm_overlap_percentage_def, if_neg (by decide), hnum, hden]
    norm_num
  refine ⟨?_, ?_, h200, by rw [h200]; norm_num⟩
  · intro earlier l₁ l₂ hs
    rw [cm_duplicated_count_def, cm_duplicated_count_def]
    congr 1
    apply List.filter_congr
    intro a _
    cases hc1 : (l₁.map toComparable).contains a with
    | true =>
      have : a ∈ l₂.map toComparable := (hs a).mp ((contains_eq_true_iff _ _).mp hc1)
      exact ((contains_eq_true_iff _ _).mpr this).symm
    | false =>
      cases hc2 : (l₂.map toComparable).contains a with
      | true =>
        have : a ∈ l₁.map toComparable := (hs a).mpr ((contains_eq_true_iff _ _).mp hc2)
        rw [(contains_eq_true_iff _ _).mpr this] at hc1
        exact absurd hc1 (by simp)
      | false => rfl
  · intro v k later hmem
    have hp : (later.map toComparable).contains (toComparable v) = true :=
      (contains_eq_true_iff _ _).mpr hmem
    rw [cm_duplicated_count_def, List.map_replicate]
    have hfilter : (List.replicate k (toComparable v)).filter
        (fun m => (later.map toComparable).contains m) = List.replicate k (toComparable v) := by
      apply List.filter_eq_self.mpr
      intro a ha
      rw [List.eq_of_mem_replicate ha]
      exact hp
    rw [hfilter, List.length_replicate]

/-- Witness for C10 at `v = msgHi`, `k = 2`, `later = [msgHi]`. -/
theorem c10_overlap_counts_earlier_multiplicity_witness :
    (toComparable msgHi ∈ ([msgHi] : List PyVal).map toComparable) ∧
    (compare_messages (List.replicate 2 msgHi) [msgHi]).duplicated_count = 2 :=
  ⟨by simp, c10_overlap_counts_earlier_multiplicity.2.1 msgHi 2 [msgHi] (by simp)⟩

/-! ### Order lemmas for the key-sorted serialization -/

lemma char_toNat_inj {a b : Char} (h : a.toNat = b.toNat) : a = b := by
  have := congrArg Char.ofNat h
  rwa [Char.ofNat_toNat, Char.ofNat_toNat] at this

lemma charsLe_total : ∀ a b : List Char, charsLe a b = true ∨ charsLe b a = true
  | [], _ => by left; rfl
  | _ :: _, [] => by right; rfl
  | a :: as, b :: bs => by
    by_cases hab : a = b
    · subst hab
      rcases charsLe_total as bs with h | h
      · left; simpa [charsLe] using h
      · right; simpa [charsLe] using h
    · have hne : a.toNat ≠ b.toNat := fun hqe => hab (char_toNat_inj hqe)
      rcases Nat.lt_or_ge a.toNat b.toNat with h | h
      · left; simp [charsLe, hab, h]
      · right
        have hba : b ≠ a := fun hqe => hab hqe.symm
        have : b.toNat < a.toNat := by omega
        simp [charsLe, hba, this]

lemma charsLe_trans : ∀ a b c : List Char,
    charsLe a b = true → charsLe b c = true → charsLe a c = true
  | [], _, _, _, _ => rfl
  | a :: as, [], _, h, _ => by simp [charsLe] at h
  | a :: as, b :: bs, [], _, h => by simp [charsLe] at h
  | a :: as, b :: bs, c :: cs, h₁, h₂ => by
    by_cases hab : a = b <;> by_cases hbc : b = c
    · subst hab; subst hbc
      simp only [charsLe, if_pos rfl] at h₁ h₂ ⊢
      exact charsLe_trans as bs cs h₁ h₂
    · subst hab
      simpa [charsLe, hbc] using h₂
    · subst hbc
      simpa [charsLe, hab] using h₁
    · simp only [charsLe, if_neg hab, if_neg hbc, decide_eq_true_eq] at h₁ h₂
      have hac : a.toNat < c.toNat := Nat.lt_trans h₁ h₂
      have : a ≠ c := fun hqe => by subst hqe; omega
      simp [charsLe, this, hac]

lemma charsLe_antisymm : ∀ a b : List Char,
    charsLe a b = true → charsLe b a = true → a = b
  | [], [], _, _ => rfl
  | [], _ :: _, _, h => by simp [charsLe] at h
  | _ :: _, [], h, _ => by simp [charsLe] at h
  | a :: as, b :: bs, h₁, h₂ => by
    by_cases hab : a = b
    · subst hab
      simp only [charsLe, if_pos rfl] at h₁ h₂
      rw [charsLe_antisymm as bs h₁ h₂]
    · have hba : b ≠ a := fun hqe => hab hqe.symm
      simp only [charsLe, if_neg hab, if_neg hba, decide_eq_true_eq] at h₁ h₂
      omega

lemma strLeB_antisymm {x y : String} (h₁ : strLeB x y = true) (h₂ : strLeB y x = true) :
    x = y := by
  cases x with
  | mk dx =>
    cases y with
    | mk dy =>
      exact congrArg String.mk (charsLe_antisymm dx dy h₁ h₂)

instance : IsTotal (String × String) pairLe :=
  ⟨fun a b => charsLe_total a.1.data b.1.data⟩

instance : IsTrans (String × String) pairLe :=
  ⟨fun _ _ _ hab hbc => charsLe_trans _ _ _ hab hbc⟩

/-- Two sorted pair lists that are permutations of each other and have
duplicate-free keys are equal. -/
lemma sortedPairs_unique : ∀ l₁ l₂ : List (String × String), l₁.Sorted pairLe →
    l₂.Sorted pairLe → l₁.Perm l₂ → (l₁.map Prod.fst).Nodup → l₁ = l₂
  | [], l₂, _, _, h, _ => (h.symm.eq_nil).symm
  | a :: t₁, [], _, _, h, _ => absurd h.eq_nil (List.cons_ne_nil _ _)
  | a :: t₁, b :: t₂, s₁, s₂, h, hn => by
    have hmem_b : b ∈ a :: t₁ := h.symm.subset (List.mem_cons_self _ _)
    have hmem_a : a ∈ b :: t₂ := h.subset (List.mem_cons_self _ _)
    have hab : a = b := by
      by_contra hne
      have hb_t₁ : b ∈ t₁ := by
        rcases List.mem_cons.mp hmem_b with hqe | hb
        · exact absurd hqe.symm hne
        · exact hb
      have ha_t₂ : a ∈ t₂ := by
        rcases List.mem_cons.mp hmem_a with hqe | ha
        · exact absurd hqe hne
        · exact ha
      have h₁ : pairLe a b := (List.sorted_cons.mp s₁).1 b hb_t₁
      have h₂ : pairLe b a := (List.sorted_cons.mp s₂).1 a ha_t₂
      have hkey : a.1 = b.1 := strLeB_antisymm h₁ h₂
      have : a.1 ∈ t₁.map Prod.fst := hkey ▸ List.mem_map_of_mem Prod.fst hb_t₁
      exact (List.nodup_cons.mp hn).1 this
    subst hab
    have htail : t₁ = t₂ :=
      sortedPairs_unique t₁ t₂ (List.sorted_cons.mp s₁).2 (List.sorted_cons.mp s₂).2
        h.cons_inv (List.nodup_cons.mp hn).2
    rw [htail]

lemma sortPairs_eq_of_perm (l₁ l₂ : List (String × String)) (h : l₁.Perm l₂)
    (hn : (l₁.map Prod.fst).Nodup) : sortPairs l₁ = sortPairs l₂ := by
  apply sortedPairs_unique _ _ (List.sorted_insertionSort pairLe l₁)
    (List.sorted_insertionSort pairLe l₂)
  · exact (List.perm_insertionSort pairLe l₁).trans
      (h.trans (List.perm_insertionSort pairLe l₂).symm)
  · exact (((List.perm_insertionSort pairLe l₁).map Prod.fst).nodup_iff).mpr hn

lemma renderFields_eq_map (fs : List (String × PyVal)) :
    dumps.renderFields fs = fs.map (fun kv => (kv.1, jquote kv.1 ++ ": " ++ dumps kv.2)) := by
  induction fs with
  | nil => rfl
  | cons kv rest ih =>
    rcases kv with ⟨k, v⟩
    simp [dumps.renderFields, ih]

/-- `json.dumps(..., sort_keys=True)` is key-order independent: a dict
whose field list is permuted (with duplicate-free keys) serializes to the
same string. -/
lemma dumps_pdict_perm (fs₁ fs₂ : List (String × PyVal)) (h : fs₁.Perm fs₂)
    (hn : (fs₁.map Prod.fst).Nodup) : dumps (.pdict fs₁) = dumps (.pdict fs₂) := by
  have hperm : (dumps.renderFields fs₁).Perm (dumps.renderFields fs₂) := by
    rw [renderFields_eq_map, renderFields_eq_map]
    exact h.map _
  have hkeys : (dumps.renderFields fs₁).map Prod.fst = fs₁.map Prod.fst := by
    rw [renderFields_eq_map, List.map_map]
    rfl
  have hsort : sortPairs (dumps.renderFields fs₁) = sortPairs (dumps.renderFields fs₂) :=
    sortPairs_eq_of_perm _ _ hperm (by rw [hkeys]; exact hn)
  simp only [dumps]
  rw [hsort]

/-- C6: the canonical equality used by both analyzer paths is key-order
independent: records with the same key-value pairs in different orders
canonicalize identically, are counted as duplicated (not new) by
`compare_messages` and as contained by `check_complete_containment`, and
non-record elements compare by their plain textual form (`str`). -/
theorem c6_canonical_equality_key_order_independent :
    ∀ fs₁ fs₂ : List (String × PyVal), fs₁.Perm fs₂ → (fs₁.map Prod.fst).Nodup →
      toComparable (.pdict fs₁) = toComparable (.pdict fs₂) ∧
      (compare_messages [.pdict fs₁] [.pdict fs₂]).duplicated_count = 1 ∧
      (compare_messages [.pdict fs₁] [.pdict fs₂]).new_count = 0 ∧
      (check_complete_containment [.pdict fs₁] [.pdict fs₂]).is_complete_subset = true ∧
      (∀ v w : PyVal, isDict v = false → isDict w = false →
        (toComparable v = toComparable w ↔ pyStr v = pyStr w)) := by
  intro fs₁ fs₂ hperm hnodup
  have hc : toComparable (.pdict fs₁) = toComparable (.pdict fs₂) :=
    dumps_pdict_perm fs₁ fs₂ hperm hnodup
  have hself : ∀ s : String, ([s] : List String).contains s = true := by
    intro s
    exact (contains_eq_true_iff _ _).mpr (List.mem_singleton_self _)
  have hnd : ∀ v : PyVal, isDict v = false → toComparable v = pyStr v := by
    intro v hv
    cases v <;> simp_all [isDict, toComparable, pyStr]
  refine ⟨hc, ?_, ?_, ?_, fun v w hv hw => by rw [hnd v hv, hnd w hw]⟩
  · rw [cm_duplicated_count_def]
    simp only [List.map_cons, List.map_nil, hc]
    rw [List.filter_cons_of_pos (by simp [hself _])]
    rfl
  · rw [cm_new_count_def]
    simp only [List.map_cons, List.map_nil, hc]
    rw [List.filter_cons_of_neg (by simp [hself _])]
    rfl
  · rw [ccc_is_complete_subset_def]
    simp only [List.map_cons, List.map_nil, hc]
    rw [List.filter_cons_of_neg (by simp [hself _])]
    simp

/-- Witness for C6 at the concrete record whose two fields are swapped. -/
theorem c6_canonical_equality_key_order_independent_witness :
    (([("role", PyVal.pstr "user"), ("content", PyVal.pstr "hi")] :
        List (String × PyVal)).Perm
      [("content", PyVal.pstr "hi"), ("role", PyVal.pstr "user")]) ∧
    toComparable (.pdict [("role", PyVal.pstr "user"), ("content", PyVal.pstr "hi")]) =
      toComparable (.pdict [("content", PyVal.pstr "hi"), ("role", PyVal.pstr "user")]) := by
  have hp : (([("role", PyVal.pstr "user"), ("content", PyVal.pstr "hi")] :
      List (String × PyVal)).Perm
      [("content", PyVal.pstr "hi"), ("role", PyVal.pstr "user")]) :=
    List.Perm.swap _ _ _
  exact ⟨hp, (c6_canonical_equality_key_order_independent _ _ hp (by decide)).1⟩

/-! ### Session-ID Resolver (query_traces.py, reconstruct_sessions.py,
analyze_sessions.py) and session grouping (query_traces.py) -/

/-- `dict.get(key)` on a Python dict modelled as an ordered field list
(keys are unique in a Python dict; the first match is returned). -/
def pget (fields : List (String × PyVal)) (key : String) : Option PyVal :=
  match fields with
  | [] => none
  | (k, v) :: rest => if k = key then some v else pget rest key

/-- One guarded extraction step of `extract_session_id` in
query_traces.py: `if user_id and 'session_' in str(user_id): return
str(user_id).split('session_')[-1]`; `none` means fall through to the
next source (which is also what a missing key produces). -/
def sessionFromValOpt : Option PyVal → Option String
  | none => none
  | some v =>
    if truthy v && strContains (pyStr v) "session_" then
      some (py_split_last (pyStr v) "session_")
    else none

/-- The three ordered metadata sources of query_traces.py's
`extract_session_id`: `user_id`, then `user_api_key_end_user_id`, then
`requester_metadata.user_id` (with `.get('requester_metadata', {})` and
an `isinstance(dict)` guard), then the caller-supplied fallback. -/
def extractFromFields (fields : List (String × PyVal)) (fallback : Option String) :
    Option String :=
  match sessionFromValOpt (pget fields "user_id") with
  | some s => some s
  | none =>
    match sessionFromValOpt (pget fields "user_api_key_end_user_id") with
    | some s => some s
    | none =>
      match (pget fields "requester_metadata").getD (.pdict []) with
      | .pdict rfields =>
        match sessionFromValOpt (pget rfields "user_id") with
        | some s => some s
        | none => fallback
      | _ => fallback

/-- A pandas row as consumed by query_traces.py: `attributes.metadata`
(`none` models a missing/NaN metadata cell) and `context.trace_id`
(`none` models a NaN trace id; the `'unknown'` default of `row.get`
applies only when the column is absent from the frame and is not
modelled). -/
structure QRow where
  metadata : Option PyVal
  trace_id : Option String

/-- `extract_session_id(row)` from query_traces.py: with absent, falsy or
non-dict metadata the trace id is returned directly; otherwise the three
metadata sources are tried in order with the trace id as final fallback. -/
def extract_session_id_q (row : QRow) : Option String :=
  match row.metadata with
  | none => row.trace_id
  | some md =>
    if !(truthy md) || !(isDict md) then row.trace_id
    else
      match md with
      | .pdict fields => extractFromFields fields row.trace_id
      | _ => row.trace_id

/-- Python's `pat in v` for the value types that can sit in metadata: a
substring test on strings, a key test on dicts, an element test on lists,
and a `TypeError` (modelled as `.error`) on `int`/`None`. -/
def pyInStr (pat : String) : PyVal → Except Unit Bool
  | .pstr s => .ok (strContains s pat)
  | .pdict fields => .ok (fields.any (fun kv => kv.1 == pat))
  | .plist xs => .ok (xs.any (fun v => match v with | .pstr s => s == pat | _ => false))
  | .pint _ => .error ()
  | .pnone => .error ()

/-- One guarded extraction step of `extract_session_id` in
reconstruct_sessions.py / analyze_sessions.py: `if user_id and 'session_'
in user_id: return user_id.split('session_')[-1]` — note there is no
`str()` coercion there, so a truthy non-string value raises (`.error`) in
the `in` test or the `.split` call. -/
def sessionFromValR : Option PyVal → Except Unit (Option String)
  | none => .ok none
  | some v =>
    if truthy v then
      match pyInStr "session_" v with
      | .error _ => .error ()
      | .ok true =>
        match v with
        | .pstr s => .ok (some (py_split_last s "session_"))
        | _ => .error ()
      | .ok false => .ok none
    else .ok none

/-- `extract_session_id(metadata)` from reconstruct_sessions.py (the
identical copy in analyze_sessions.py is covered by the same model): it
checks only `user_api_key_end_user_id` and `requester_metadata.user_id` —
the `user_id` key is never consulted — and returns `None` (absent) when
neither matches. -/
def extract_session_id_r (metadata : Option PyVal) : Except Unit (Option String) :=
  match metadata with
  | none => .ok none
  | some md =>
    if !(isDict md) then .ok none
    else
      match md with
      | .pdict fields =>
        match sessionFromValR (pget fields "user_api_key_end_user_id") with
        | .error _ => .error ()
        | .ok (some s) => .ok (some s)
        | .ok none =>
          match (pget fields "requester_metadata").getD (.pdict []) with
          | .pdict rfields =>
            match sessionFromValR (pget rfields "user_id") with
            | .error _ => .error ()
            | .ok (some s) => .ok (some s)
            | .ok none => .ok none
          | _ => .ok none
      | _ => .ok none

/-- The sorted unique non-NaN session keys of a row collection, as
`df.groupby('session_id')` produces them (groupby sorts its keys and
drops NaN keys). -/
def sessionKeys (rows : List QRow) : List String :=
  List.insertionSort (fun a b => strLeB a b = true) ((rows.filterMap extract_session_id_q).dedup)

/-- `group_by_session(df)` from query_traces.py: tag each row with
`extract_session_id`, then group rows by that key (groups keep the
original row order, keys are the sorted unique tags). -/
def group_by_session (rows : List QRow) : List (String × List QRow) :=
  (sessionKeys rows).map (fun k => (k, rows.filter (fun r => extract_session_id_q r == some k)))

/-- Flatten the grouped rows back into one list. -/
def concatGroups : List (String × List QRow) → List QRow
  | [] => []
  | g :: rest => g.2 ++ concatGroups rest

lemma strContains_truthy (v : PyVal) (h : strContains (pyStr v) "session_" = true) :
    truthy v = true := by
  cases v with
  | pnone => exact absurd h (by decide)
  | pstr s =>
    rcases eq_or_ne s "" with rfl | hn
    · exact absurd h (by decide)
    · simp [truthy, hn]
  | pint n =>
    rcases eq_or_ne n 0 with rfl | hn
    · exact absurd h (by decide)
    · simp [truthy, hn]
  | plist xs =>
    rcases xs with _ | ⟨x, rest⟩
    · exact absurd h (by decide)
    · simp [truthy]
  | pdict fs =>
    rcases fs with _ | ⟨kv, rest⟩
    · exact absurd h (by decide)
    · simp [truthy]

lemma pget_some_nonempty {fields : List (String × PyVal)} {k : String} {v : PyVal}
    (h : pget fields k = some v) : fields.isEmpty = false := by
  cases fields with
  | nil => simp [pget] at h
  | cons kv rest => rfl

/-- C2 counterexample: for `metadata = {"user_id": "abc_session_42"}` the
resolver copy in reconstruct_sessions.py / analyze_sessions.py returns
absent (`None`) — not `"42"` as the claim requires of the Session-ID
Resolver — while the query_traces.py resolver does return `"42"`. -/
theorem c2_user_id_key_skipped_by_r_cex :
    extract_session_id_r (some (.pdict [("user_id", .pstr "abc_session_42")])) = .ok none ∧
    extract_session_id_q ⟨some (.pdict [("user_id", .pstr "abc_session_42")]), some "T1"⟩ =
      some "42" := by
  constructor
  · rfl
  · rfl

/-- C2 amended: the query_traces.py resolver checks `user_id` first —
whenever metadata is a dict whose `user_id` value stringifies to a string
containing `session_`, it returns everything after the last occurrence of
that substring, regardless of the other keys; the resolver copy in
reconstruct_sessions.py / analyze_sessions.py never consults `user_id`
and yields absent when the two keys it does consult are missing. -/
theorem c2_session_id_resolver_user_id :
    (∀ (fields : List (String × PyVal)) (v : PyVal) (tid : Option String),
        pget fields "user_id" = some v →
        strContains (pyStr v) "session_" = true →
        extract_session_id_q ⟨some (.pdict fields), tid⟩ =
          some (py_split_last (pyStr v) "session_")) ∧
    (∀ fields : List (String × PyVal),
        pget fields "user_api_key_end_user_id" = none →
        pget fields "requester_metadata" = none →
        extract_session_id_r (some (.pdict fields)) = .ok none) := by
  constructor
  · intro fields v tid hv hc
    have ht : truthy v = true := strContains_truthy v hc
    have hne : fields.isEmpty = false := pget_some_nonempty hv
    have hcond : (!(truthy (PyVal.pdict fields)) || !(isDict (PyVal.pdict fields))) = false := by
      simp [truthy, isDict, hne]
    simp only [extract_session_id_q, hcond, Bool.false_eq_true, if_false, extractFromFields,
      hv, sessionFromValOpt, ht, hc, Bool.and_self, if_true]
  · intro fields h1 h2
    simp [extract_session_id_r, isDict, h1, h2, sessionFromValR, pget]

/-- Witness for C2 at `metadata = {"user_id": "abc_session_42"}`. -/
theorem c2_session_id_resolver_user_id_witness :
    (pget [("user_id", PyVal.pstr "abc_session_42")] "user_id" =
      some (PyVal.pstr "abc_session_42")) ∧
    extract_session_id_q ⟨some (.pdict [("user_id", PyVal.pstr "abc_session_42")]), some "T1"⟩ =
      some "42" := by
  have h := c2_session_id_resolver_user_id.1 [("user_id", PyVal.pstr "abc_session_42")]
    (PyVal.pstr "abc_session_42") (some "T1") rfl (by decide)
  refine ⟨rfl, ?_⟩
  rw [h]
  decide

lemma concatGroups_append (a b : List (String × List QRow)) :
    concatGroups (a ++ b) = concatGroups a ++ concatGroups b := by
  induction a with
  | nil => rfl
  | cons g rest ih => simp [concatGroups, ih]

lemma concatGroups_empty_filters (key : QRow → Option String) :
    ∀ ks : List String,
      concatGroups (ks.map (fun k =>
        (k, ([] : List QRow).filter (fun row => key row == some k)))) = [] := by
  intro ks
  induction ks with
  | nil => rfl
  | cons k ks ih => simpa [concatGroups, List.filter_nil] using ih

lemma concatGroups_filter_skip (key : QRow → Option String) (r : QRow) (rest : List QRow)
    (k' : String) (hk : key r = some k') :
    ∀ ks : List String, k' ∉ ks →
      concatGroups (ks.map (fun k => (k, (r :: rest).filter (fun row => key row == some k)))) =
      concatGroups (ks.map (fun k => (k, rest.filter (fun row => key row == some k)))) := by
  intro ks
  induction ks with
  | nil => intro _; rfl
  | cons k ks ih =>
    intro hmem
    have hkk : k' ≠ k := fun h => hmem (h ▸ List.mem_cons_self _ _)
    have hpred : ¬((key r == some k) = true) := by
      rw [hk]
      simp [hkk]
    simp only [List.map_cons, concatGroups]
    rw [@List.filter_cons_of_neg QRow (fun row => key row == some k) r rest hpred,
      ih (fun h => hmem (List.mem_cons_of_mem _ h))]

lemma groups_flatten_perm (key : QRow → Option String) :
    ∀ (rows : List QRow) (ks : List String), ks.Nodup →
      (∀ r ∈ rows, ∃ k ∈ ks, key r = some k) →
      (concatGroups (ks.map (fun k =>
        (k, rows.filter (fun row => key row == some k))))).Perm rows := by
  intro rows
  induction rows with
  | nil =>
    intro ks _ _
    rw [concatGroups_empty_filters]
  | cons r rest ih =>
    intro ks hnd hall
    obtain ⟨k', hk'mem, hk'⟩ := hall r (List.mem_cons_self _ _)
    obtain ⟨s, t, rfl⟩ := List.append_of_mem hk'mem
    have hnotin : k' ∉ s ++ t := (List.nodup_cons.mp (List.nodup_middle.mp hnd)).1
    have hs : k' ∉ s := fun h => hnotin (List.mem_append_left _ h)
    have ht : k' ∉ t := fun h => hnotin (List.mem_append_right _ h)
    have hfck : (r :: rest).filter (fun row => key row == some k') =
        r :: rest.filter (fun row => key row == some k') :=
      @List.filter_cons_of_pos QRow (fun row => key row == some k') r rest (by simp [hk'])
    rw [List.map_append, concatGroups_append, List.map_cons]
    simp only [concatGroups]
    rw [hfck, concatGroups_filter_skip key r rest k' hk' s hs,
      concatGroups_filter_skip key r rest k' hk' t ht]
    simp only [List.cons_append]
    refine List.Perm.trans List.perm_middle ?_
    apply List.Perm.cons
    have hrest : ∀ x ∈ rest, ∃ k ∈ s ++ k' :: t, key x = some k := fun x hx =>
      hall x (List.mem_cons_of_mem _ hx)
    have hperm := ih (s ++ k' :: t) hnd hrest
    rw [List.map_append, concatGroups_append, List.map_cons] at hperm
    simp only [concatGroups] at hperm
    simpa using hperm

/-- C3 counterexample: a span whose metadata is
`{"user_id": "session_"}` resolves to the empty-string session id, and
`group_by_session` files it under the key `""` — not under its trace id
`"T1"` as the claimed "non-empty, otherwise trace_id" policy requires. -/
theorem c3_empty_extraction_keeps_empty_key_cex :
    extract_session_id_q ⟨some (.pdict [("user_id", PyVal.pstr "session_")]), some "T1"⟩ =
      some "" ∧
    group_by_session [⟨some (.pdict [("user_id", PyVal.pstr "session_")]), some "T1"⟩] =
      [("", [⟨some (.pdict [("user_id", PyVal.pstr "session_")]), some "T1"⟩])] := by
  constructor
  · rfl
  · rfl

/-- C3 amended: each span is tagged with exactly one session key by
`extract_session_id` (which itself falls back to the trace id when
metadata is absent or unmatched, but keeps an extracted empty string as
the key); whenever every row's key is non-NaN — in particular whenever
every row carries a trace id — the groups of `group_by_session` partition
the input: flattening them back is a permutation of the input rows, and
every row sits in the group labelled with its own key. -/
theorem c3_grouping_partitions_rows :
    ∀ rows : List QRow, (∀ r ∈ rows, (extract_session_id_q r).isSome) →
      (concatGroups (group_by_session rows)).Perm rows ∧
      (∀ g ∈ group_by_session rows, ∀ r ∈ g.2, extract_session_id_q r = some g.1) := by
  intro rows hall
  constructor
  · apply groups_flatten_perm
    · exact ((List.perm_insertionSort _ _).nodup_iff).mpr (List.nodup_dedup _)
    · intro r hr
      obtain ⟨k, hk⟩ := Option.isSome_iff_exists.mp (hall r hr)
      refine ⟨k, ?_, hk⟩
      apply (List.perm_insertionSort _ _).mem_iff.mpr
      rw [List.mem_dedup]
      exact List.mem_filterMap.mpr ⟨r, hr, hk⟩
  · intro g hg r hr
    obtain ⟨k, _, rfl⟩ := List.mem_map.mp hg
    have hpred := (List.mem_filter.mp hr).2
    simpa using hpred

/-- Witness for C3 at a one-row collection with no metadata and trace id
`"T1"`. -/
theorem c3_grouping_partitions_rows_witness :
    (∀ r ∈ ([⟨none, some "T1"⟩] : List QRow), (extract_session_id_q r).isSome) ∧
    (concatGroups (group_by_session [(⟨none, some "T1"⟩ : QRow)])).Perm
      [(⟨none, some "T1"⟩ : QRow)] := by
  have hall : ∀ r ∈ ([⟨none, some "T1"⟩] : List QRow), (extract_session_id_q r).isSome := by
    intro r hr
    rw [List.mem_singleton.mp hr]
    rfl
  exact ⟨hall, (c3_grouping_partitions_rows _ hall).1⟩

/-! ### Temporal Segmenter (reconstruct_sessions.py,
detect_conversation_boundaries) -/

/-- A span row as consumed by `detect_conversation_boundaries`:
timestamps in seconds, `none` modelling a missing value (NaT). -/
structure SegSpan where
  start_time : Option ℚ
  end_time : Option ℚ

/-- The loop state of `detect_conversation_boundaries`: finished
conversations, the conversation under construction, and `last_end_time`
(`none` before the first row — Python `None` — and `some none` when the
previous row's `end_time` was NaT). -/
structure SegState where
  conversations : List (List SegSpan)
  current : List SegSpan
  last_end : Option (Option ℚ)

/-- The boundary test `(start_time - last_end_time).total_seconds() >
gap_threshold_seconds`: false whenever either timestamp is NaT, because
NaT arithmetic yields NaN and `NaN > threshold` is false. -/
def gapExceeds (thr : ℚ) (start le : Option ℚ) : Bool :=
  match start, le with
  | some s, some e => decide (s - e > thr)
  | _, _ => false

/-- One iteration of the loop in `detect_conversation_boundaries`: the
first row is always appended; afterwards a new conversation starts
exactly when the gap test fires, and `last_end_time` is unconditionally
set to the row's `end_time`. -/
def segStep (thr : ℚ) (st : SegState) (row : SegSpan) : SegState :=
  match st.last_end with
  | none => { st with current := st.current ++ [row], last_end := some row.end_time }
  | some le =>
    if gapExceeds thr row.start_time le then
      { conversations := st.conversations ++ (if st.current.isEmpty then [] else [st.current]),
        current := [row],
        last_end := some row.end_time }
    else
      { st with current := st.current ++ [row], last_end := some row.end_time }

/-- Run the segmenter loop from a given state and flush the final
conversation (the `if current_conversation:` guard at the end). -/
def runOut (thr : ℚ) (st : SegState) (l : List SegSpan) : List (List SegSpan) :=
  let st' := l.foldl (segStep thr) st
  st'.conversations ++ (if st'.current.isEmpty then [] else [st'.current])

/-- `detect_conversation_boundaries(df, gap_threshold_seconds)` from
reconstruct_sessions.py. -/
def detect_conversation_boundaries (df : List SegSpan) (thr : ℚ) : List (List SegSpan) :=
  runOut thr ⟨[], [], none⟩ df

/-- A uniform time-ordered family of spans: each span lasts `dur` and the
next one starts `gap` seconds after the previous one's end. -/
def mkUniform (dur gap : ℚ) : Nat → ℚ → List SegSpan
  | 0, _ => []
  | n + 1, s => ⟨some s, some (s + dur)⟩ :: mkUniform dur gap n (s + dur + gap)

lemma runOut_separate (thr dur gap : ℚ) :
    ∀ (n : Nat) (s : ℚ) (cs : List (List SegSpan)) (cur : List SegSpan) (e : ℚ),
      cur.isEmpty = false → thr < s - e → thr < gap →
      runOut thr ⟨cs, cur, some (some e)⟩ (mkUniform dur gap n s) =
        cs ++ [cur] ++ (mkUniform dur gap n s).map (fun x => [x]) := by
  intro n
  induction n with
  | zero =>
    intro s cs cur e hcur _ _
    simp [mkUniform, runOut, hcur]
  | succ n ih =>
    intro s cs cur e hcur hse hgap
    have hd : gapExceeds thr (some s) (some e) = true := by
      simp [gapExceeds]
      linarith
    have hstep : segStep thr ⟨cs, cur, some (some e)⟩
        ({ start_time := some s, end_time := some (s + dur) } : SegSpan) =
        ⟨cs ++ [cur], [{ start_time := some s, end_time := some (s + dur) }],
          some (some (s + dur))⟩ := by
      simp [segStep, hd, hcur]
    have hrun : runOut thr ⟨cs, cur, some (some e)⟩ (mkUniform dur gap (n + 1) s) =
        runOut thr (segStep thr ⟨cs, cur, some (some e)⟩
          ({ start_time := some s, end_time := some (s + dur) } : SegSpan))
          (mkUniform dur gap n (s + dur + gap)) := rfl
    rw [hrun, hstep, ih (s + dur + gap) (cs ++ [cur])
      [{ start_time := some s, end_time := some (s + dur) }] (s + dur)
      rfl (by linarith) hgap]
    simp [mkUniform]

lemma runOut_merge (thr dur gap : ℚ) :
    ∀ (n : Nat) (s : ℚ) (cs : List (List SegSpan)) (cur : List SegSpan) (e : ℚ),
      cur.isEmpty = false → s - e ≤ thr → gap ≤ thr →
      runOut thr ⟨cs, cur, some (some e)⟩ (mkUniform dur gap n s) =
        cs ++ [cur ++ mkUniform dur gap n s] := by
  intro n
  induction n with
  | zero =>
    intro s cs cur e hcur _ _
    simp [mkUniform, runOut, hcur]
  | succ n ih =>
    intro s cs cur e hcur hse hgap
    have hd : gapExceeds thr (some s) (some e) = false := by
      simp [gapExceeds]
      linarith
    have hstep : segStep thr ⟨cs, cur, some (some e)⟩
        ({ start_time := some s, end_time := some (s + dur) } : SegSpan) =
        ⟨cs, cur ++ [{ start_time := some s, end_time := some (s + dur) }],
          some (some (s + dur))⟩ := by
      simp [segStep, hd]
    have hrun : runOut thr ⟨cs, cur, some (some e)⟩ (mkUniform dur gap (n + 1) s) =
        runOut thr (segStep thr ⟨cs, cur, some (some e)⟩
          ({ start_time := some s, end_time := some (s + dur) } : SegSpan))
          (mkUniform dur gap n (s + dur + gap)) := rfl
    have hcur' : (cur ++
        [({ start_time := some s, end_time := some (s + dur) } : SegSpan)]).isEmpty = false := by
      cases cur <;> rfl
    have hih := ih (s + dur + gap) cs
      (cur ++ [{ start_time := some s, end_time := some (s + dur) }]) (s + dur)
      hcur' (by linarith) hgap
    rw [hrun, hstep, hih]
    simp [mkUniform]

/-- C7: on a uniform time-ordered family of N spans each starting exactly
`threshold + 1` seconds after the previous one's end, the Temporal
Segmenter produces exactly N single-span segments; on N spans (N ≥ 1)
each starting 1 second after the previous one's end with threshold 300,
it produces exactly one segment holding all N spans. -/
theorem c7_temporal_segmenter_uniform (N : Nat) (thr dur s0 : ℚ) :
    detect_conversation_boundaries (mkUniform dur (thr + 1) N s0) thr =
      (mkUniform dur (thr + 1) N s0).map (fun x => [x]) ∧
    (0 < N →
      detect_conversation_boundaries (mkUniform dur 1 N s0) 300 =
        [mkUniform dur 1 N s0]) := by
  constructor
  · cases N with
    | zero => rfl
    | succ n =>
      have h1 : detect_conversation_boundaries (mkUniform dur (thr + 1) (n + 1) s0) thr =
          runOut thr ⟨[], [{ start_time := some s0, end_time := some (s0 + dur) }],
            some (some (s0 + dur))⟩
            (mkUniform dur (thr + 1) n (s0 + dur + (thr + 1))) := rfl
      rw [h1, runOut_separate thr dur (thr + 1) n (s0 + dur + (thr + 1)) []
        [{ start_time := some s0, end_time := some (s0 + dur) }] (s0 + dur)
        rfl (by linarith) (by linarith)]
      simp [mkUniform]
  · intro hN
    cases N with
    | zero => exact absurd hN (by norm_num)
    | succ n =>
      have h1 : detect_conversation_boundaries (mkUniform dur 1 (n + 1) s0) 300 =
          runOut 300 ⟨[], [{ start_time := some s0, end_time := some (s0 + dur) }],
            some (some (s0 + dur))⟩
            (mkUniform dur 1 n (s0 + dur + 1)) := rfl
      rw [h1, runOut_merge 300 dur 1 n (s0 + dur + 1) []
        [{ start_time := some s0, end_time := some (s0 + dur) }] (s0 + dur)
        rfl (by linarith) (by norm_num)]
      simp [mkUniform]

/-- Witness for C7 at N = 2 (threshold 5 for the first part). -/
theorem c7_temporal_segmenter_uniform_witness :
    (0 < 2) ∧
    detect_conversation_boundaries (mkUniform 0 1 2 0) 300 = [mkUniform 0 1 2 0] :=
  ⟨by norm_num, (c7_temporal_segmenter_uniform 2 5 0 0).2 (by norm_num)⟩

/-- C8: a span with missing `start_time`, or one whose predecessor left a
missing `end_time` in `last_end_time`, never triggers a new segment: the
step folds the span into the current conversation unchanged (and the
model is a total function — no exception is raised on such records). -/
theorem c8_missing_timestamps_never_split (thr : ℚ) (st : SegState) (row : SegSpan)
    (h : row.start_time = none ∨ st.last_end = some none) :
    segStep thr st row =
      { conversations := st.conversations, current := st.current ++ [row],
        last_end := some row.end_time } := by
  rcases st with ⟨cs, cur, le⟩
  rcases row with ⟨rs, re⟩
  rcases le with _ | le'
  · rfl
  · have hgap : gapExceeds thr rs le' = false := by
      rcases h with h | h
      · have h' : rs = none := h
        rw [h']
        rcases le' with _ | e <;> rfl
      · have h' : some le' = some (none : Option ℚ) := h
        injection h' with h''
        rw [h'']
        rcases rs with _ | s <;> rfl
    simp [segStep, hgap]

/-- Witness for C8: a predecessor with missing `end_time` (NaT stored in
`last_end_time`) does not open a new segment. -/
theorem c8_missing_timestamps_never_split_witness :
    ((⟨some 1, some 2⟩ : SegSpan).start_time = none ∨
      (⟨[], [], some none⟩ : SegState).last_end = some none) ∧
    segStep 300 ⟨[], [], some none⟩ ⟨some 1, some 2⟩ =
      { conversations := [], current := [⟨some 1, some 2⟩], last_end := some (some 2) } :=
  ⟨Or.inr rfl,
    c8_missing_timestamps_never_split 300 ⟨[], [], some none⟩ ⟨some 1, some 2⟩ (Or.inr rfl)⟩

/-! ### Span Tree Builder (reconstruct_sessions.py build_span_tree /
reconstruct_by_trace_id; analyze_sessions.py print_tree is the same
traversal) -/

/-- A span row as consumed by the tree builder: its id
(`context.span_id`), its parent reference (`parent_id`, `none` = NaN =
root marker) and its start time (used only to order children). -/
structure TSpan where
  span_id : String
  parent_id : Option String
  start_time : Option ℚ

/-- `sort_values('start_time')` order: by start time, missing times last. -/
def startLeB (a b : TSpan) : Bool :=
  match a.start_time, b.start_time with
  | some x, some y => decide (x ≤ y)
  | some _, none => true
  | none, some _ => false
  | none, none => true

/-- The sort relation on spans used for children ordering. -/
def startLe (a b : TSpan) : Prop := startLeB a b = true

instance : DecidableRel startLe := fun a b => instDecidableEqBool (startLeB a b) true

/-- `df[df['parent_id'] == root_span_id].sort_values('start_time')`: the
children of a span, ordered by start time. -/
def childrenOf (df : List TSpan) (pid : String) : List TSpan :=
  List.insertionSort startLe (df.filter (fun s => s.parent_id == some pid))

/-- The recursion of `build_span_tree(df, root_span_id, indent)`: emit
each child (abstracted to its span id — one emitted line per span),
then recurse into that child's children, then continue with the
remaining siblings. The `Nat` fuel only bounds the recursion depth so
the definition is total; the termination theorem shows `df.length`
fuel is never exhausted when span ids are unique. -/
def buildChildren (df : List TSpan) : Nat → List TSpan → Option (List String)
  | _, [] => some []
  | 0, _ :: _ => none
  | f + 1, c :: cs =>
    match buildChildren df f (childrenOf df c.span_id),
        buildChildren df (f + 1) cs with
    | some sub, some rest => some (c.span_id :: (sub ++ rest))
    | _, _ => none
termination_by f l => (f, l.length)

/-- `build_span_tree(df, root_span_id)` with the canonical fuel. -/
def build_span_tree (df : List TSpan) (fuel : Nat) (root_span_id : String) :
    Option (List String) :=
  buildChildren df fuel (childrenOf df root_span_id)

/-- The loop over `roots = df[df['parent_id'].isna()]` in
`reconstruct_by_trace_id`: emit each root then its subtree. -/
def forestGo (df : List TSpan) : List TSpan → Option (List String)
  | [] => some []
  | r :: rs =>
    match build_span_tree df df.length r.span_id, forestGo df rs with
    | some sub, some rest => some (r.span_id :: (sub ++ rest))
    | _, _ => none

/-- The whole emitted forest of one trace group: every root (null
`parent_id`), each followed by its recursively emitted subtree. -/
def span_forest (df : List TSpan) : Option (List String) :=
  forestGo df (df.filter (fun s => s.parent_id.isNone))

/-- Does following `parent_id` links from the span named `q` reach a
null-parent span of `df` (within the given number of steps)? Executable
characterization of which spans the forest emits. -/
def reachesRoot (df : List TSpan) : Nat → String → Bool
  | 0, _ => false
  | f + 1, q =>
    match df.find? (fun s => s.span_id == q) with
    | none => false
    | some c =>
      match c.parent_id with
      | none => true
      | some p => reachesRoot df f p

/-- `ValidPath df ps pid`: `pid` is the id of a span of `df` whose chain
of `parent_id` links runs exactly through the ids `ps` (nearest parent
first) and ends at a null-parent span. -/
inductive ValidPath (df : List TSpan) : List String → String → Prop where
  | root (r : TSpan) (pid : String) (hr : r ∈ df) (hid : r.span_id = pid)
      (hp : r.parent_id = none) : ValidPath df [] pid
  | child (c : TSpan) (pid p : String) (ps : List String) (hc : c ∈ df)
      (hid : c.span_id = pid) (hp : c.parent_id = some p)
      (hrest : ValidPath df ps p) : ValidPath df (p :: ps) pid

/-- `ChainUp df q x`: following one or more `parent_id` links from the
span named `q` (through spans of `df`) reaches the id `x`. -/
inductive ChainUp (df : List TSpan) : String → String → Prop where
  | base (c : TSpan) (q pid : String) (hc : c ∈ df) (hid : c.span_id = q)
      (hp : c.parent_id = some pid) : ChainUp df q pid
  | step (c : TSpan) (q m pid : String) (hc : c ∈ df) (hid : c.span_id = q)
      (hp : c.parent_id = some m) (h : ChainUp df m pid) : ChainUp df q pid

lemma span_inj {df : List TSpan} (hn : (df.map TSpan.span_id).Nodup) {a b : TSpan}
    (ha : a ∈ df) (hb : b ∈ df) (h : a.span_id = b.span_id) : a = b :=
  List.inj_on_of_nodup_map hn ha hb h

lemma mem_childrenOf {df : List TSpan} {pid : String} {d : TSpan} :
    d ∈ childrenOf df pid ↔ d ∈ df ∧ d.parent_id = some pid := by
  unfold childrenOf
  rw [(List.perm_insertionSort startLe _).mem_iff]
  simp [List.mem_filter]

lemma childrenOf_nodup_ids {df : List TSpan} (hn : (df.map TSpan.span_id).Nodup)
    (pid : String) : ((childrenOf df pid).map TSpan.span_id).Nodup := by
  have h1 : ((df.filter (fun s => s.parent_id == some pid)).map TSpan.span_id).Nodup :=
    hn.sublist ((List.filter_sublist df).map TSpan.span_id)
  exact (((List.perm_insertionSort startLe _).map TSpan.span_id).nodup_iff).mpr h1

lemma validPath_suffix {df : List TSpan} :
    ∀ (l₁ : List String) (a : String) (l₂ : List String) (q : String),
      ValidPath df (l₁ ++ a :: l₂) q → ValidPath df l₂ a := by
  intro l₁
  induction l₁ with
  | nil =>
    intro a l₂ q h
    cases h with
    | child c pid p ps hc hid hp hrest => exact hrest
  | cons b l₁ ih =>
    intro a l₂ q h
    cases h with
    | child c pid p ps hc hid hp hrest => exact ih a l₂ b hrest

lemma validPath_unique {df : List TSpan} (hn : (df.map TSpan.span_id).Nodup) :
    ∀ (ps : List String) (q : String), ValidPath df ps q →
      ∀ ps' : List String, ValidPath df ps' q → ps = ps' := by
  intro ps q h
  induction h with
  | root r pid hr hid hp =>
    intro ps' h'
    cases h' with
    | root r' _ hr' hid' hp' => rfl
    | child c _ p psc hc hid' hp' hrest =>
      have hce : c = r := span_inj hn hc hr (hid'.trans hid.symm)
      rw [hce, hp] at hp'
      exact absurd hp' (by simp)
  | child c pid p ps hc hid hp hrest ih =>
    intro ps' h'
    cases h' with
    | root r _ hr hid' hp' =>
      have hce : c = r := span_inj hn hc hr (hid.trans hid'.symm)
      rw [hce, hp'] at hp
      exact absurd hp (by simp)
    | child c' _ p' ps2 hc' hid' hp' hrest' =>
      have hce : c' = c := span_inj hn hc' hc (hid'.trans hid.symm)
      rw [hce, hp] at hp'
      have hpe : p = p' := by injection hp'
      subst hpe
      rw [ih ps2 hrest']

lemma validPath_not_mem {df : List TSpan} (hn : (df.map TSpan.span_id).Nodup)
    {ps : List String} {q : String} (h : ValidPath df ps q) : q ∉ ps := by
  intro hmem
  obtain ⟨l₁, l₂, rfl⟩ := List.append_of_mem hmem
  have h2 : ValidPath df l₂ q := validPath_suffix l₁ q l₂ q h
  have heq : l₁ ++ q :: l₂ = l₂ := validPath_unique hn _ q h l₂ h2
  have := congrArg List.length heq
  simp at this
  omega

lemma validPath_nodup {df : List TSpan} (hn : (df.map TSpan.span_id).Nodup) :
    ∀ {ps : List String} {q : String}, ValidPath df ps q → (q :: ps).Nodup := by
  intro ps
  induction ps with
  | nil => intro q _; simp
  | cons p ps ih =>
    intro q h
    have hq : q ∉ p :: ps := validPath_not_mem hn h
    cases h with
    | child c pid _ _ hc hid hp hrest =>
      exact List.nodup_cons.mpr ⟨hq, ih hrest⟩

lemma validPath_mem_ids {df : List TSpan} {ps : List String} {q : String}
    (h : ValidPath df ps q) : ∀ x ∈ q :: ps, x ∈ df.map TSpan.span_id := by
  induction h with
  | root r pid hr hid hp =>
    intro x hx
    rw [List.mem_singleton.mp hx]
    exact List.mem_map.mpr ⟨r, hr, hid⟩
  | child c pid p ps hc hid hp hrest ih =>
    intro x hx
    rcases List.mem_cons.mp hx with rfl | hx'
    · exact List.mem_map.mpr ⟨c, hc, hid⟩
    · exact ih x hx'

lemma validPath_length {df : List TSpan} (hn : (df.map TSpan.span_id).Nodup)
    {ps : List String} {q : String} (h : ValidPath df ps q) : ps.length < df.length := by
  have hnd : (q :: ps).Nodup := validPath_nodup hn h
  have hsub : (q :: ps) ⊆ df.map TSpan.span_id := validPath_mem_ids h
  have hle : (q :: ps).length ≤ (df.map TSpan.span_id).length :=
    (List.subperm_of_subset hnd hsub).length_le
  simp at hle
  omega

lemma find_span {df : List TSpan} (hn : (df.map TSpan.span_id).Nodup) {c : TSpan}
    {q : String} (hc : c ∈ df) (hid : c.span_id = q) :
    df.find? (fun s => s.span_id == q) = some c := by
  have hsome : (df.find? (fun s => s.span_id == q)).isSome :=
    List.find?_isSome.mpr ⟨c, hc, by simp [hid]⟩
  obtain ⟨d, hd⟩ := Option.isSome_iff_exists.mp hsome
  have hdmem : d ∈ df := List.mem_of_find?_eq_some hd
  have hdq : d.span_id = q := by
    have := List.find?_some hd
    simpa using this
  rw [hd, span_inj hn hdmem hc (hdq.trans hid.symm)]

lemma buildChildren_isSome {df : List TSpan} (hn : (df.map TSpan.span_id).Nodup) :
    ∀ (f : Nat) (ps : List String) (pid : String),
      ValidPath df ps pid → df.length - ps.length ≤ f →
      ∀ l : List TSpan, (∀ c ∈ l, c ∈ df ∧ c.parent_id = some pid) →
        (buildChildren df f l).isSome := by
  intro f
  induction f using Nat.strong_induction_on with
  | _ f IH =>
    intro ps pid hvp hf
    have hlen : ps.length < df.length := validPath_length hn hvp
    cases f with
    | zero => omega
    | succ f' =>
      intro l
      induction l with
      | nil => intro _; simp [buildChildren]
      | cons c cs ihl =>
        intro hl
        obtain ⟨hcdf, hcp⟩ := hl c (List.mem_cons_self _ _)
        have hvp' : ValidPath df (pid :: ps) c.span_id :=
          ValidPath.child c c.span_id pid ps hcdf rfl hcp hvp
        have hsub : (buildChildren df f' (childrenOf df c.span_id)).isSome := by
          apply IH f' (Nat.lt_succ_self f') (pid :: ps) c.span_id hvp' (by simp; omega)
          intro d hd
          exact mem_childrenOf.mp hd
        have hrest : (buildChildren df (f' + 1) cs).isSome :=
          ihl (fun c' hc' => hl c' (List.mem_cons_of_mem _ hc'))
        obtain ⟨sub, hsubeq⟩ := Option.isSome_iff_exists.mp hsub
        obtain ⟨rest, hresteq⟩ := Option.isSome_iff_exists.mp hrest
        simp [buildChildren, hsubeq, hresteq]

lemma forestGo_isSome {df : List TSpan} (hn : (df.map TSpan.span_id).Nodup) :
    ∀ rl : List TSpan, (∀ r ∈ rl, r ∈ df ∧ r.parent_id = none) →
      (forestGo df rl).isSome := by
  intro rl
  induction rl with
  | nil => intro _; simp [forestGo]
  | cons r rs ih =>
    intro hl
    obtain ⟨hrdf, hrp⟩ := hl r (List.mem_cons_self _ _)
    have hvp : ValidPath df [] r.span_id := ValidPath.root r r.span_id hrdf rfl hrp
    have hsub : (buildChildren df df.length (childrenOf df r.span_id)).isSome := by
      apply buildChildren_isSome hn df.length [] r.span_id hvp (by simp)
      intro d hd
      exact mem_childrenOf.mp hd
    have hrest : (forestGo df rs).isSome := ih (fun r' hr' => hl r' (List.mem_cons_of_mem _ hr'))
    obtain ⟨sub, hsubeq⟩ := Option.isSome_iff_exists.mp hsub
    obtain ⟨rest, hresteq⟩ := Option.isSome_iff_exists.mp hrest
    simp [forestGo, build_span_tree, hsubeq, hresteq]

lemma chainUp_trans {df : List TSpan} : ∀ {q x y : String},
    ChainUp df q x → ChainUp df x y → ChainUp df q y := by
  intro q x y h1
  induction h1 with
  | base c q' pid hc hid hp => intro h2; exact ChainUp.step c q' pid y hc hid hp h2
  | step c q' m pid hc hid hp h ih => intro h2; exact ChainUp.step c q' m y hc hid hp (ih h2)

lemma chainUp_of_root {df : List TSpan} (hn : (df.map TSpan.span_id).Nodup) {r : TSpan}
    {x : String} (hr : r ∈ df) (hp : r.parent_id = none) : ¬ ChainUp df r.span_id x := by
  intro h
  cases h with
  | base c _ pid hc hid hcp =>
    rw [span_inj hn hc hr hid, hp] at hcp
    exact absurd hcp (by simp)
  | step c _ m pid hc hid hcp h' =>
    rw [span_inj hn hc hr hid, hp] at hcp
    exact absurd hcp (by simp)

lemma chainUp_mem_path {df : List TSpan} (hn : (df.map TSpan.span_id).Nodup) :
    ∀ {ps : List String} {pid : String}, ValidPath df ps pid →
      ∀ {x : String}, ChainUp df pid x → x ∈ ps := by
  intro ps pid hvp
  induction hvp with
  | root r pid hr hid hp =>
    intro x hchain
    exact absurd (by rw [hid]; exact hchain) (chainUp_of_root hn hr hp)
  | child c pid p ps hc hid hp hrest ih =>
    intro x hchain
    cases hchain with
    | base c' _ _ hc' hid' hcp' =>
      rw [span_inj hn hc' hc (hid'.trans hid.symm), hp] at hcp'
      have hpx : p = x := by injection hcp'
      rw [← hpx]
      exact List.mem_cons_self _ _
    | step c' _ m _ hc' hid' hcp' h' =>
      rw [span_inj hn hc' hc (hid'.trans hid.symm), hp] at hcp'
      have hpm : p = m := by injection hcp'
      exact List.mem_cons_of_mem _ (ih (hpm ▸ h'))

lemma child_not_mem_path {df : List TSpan} (hn : (df.map TSpan.span_id).Nodup)
    {ps : List String} {pid : String} (hvp : ValidPath df ps pid) {c : TSpan}
    (hc : c ∈ df) (hp : c.parent_id = some pid) : c.span_id ∉ pid :: ps := by
  have hfresh := validPath_not_mem hn hvp
  intro hmem
  rcases List.mem_cons.mp hmem with hqe | hmem'
  · cases hvp with
    | root r _ hr hid hpr =>
      rw [span_inj hn hc hr (hqe.trans hid.symm), hpr] at hp
      exact absurd hp (by simp)
    | child w _ p ps' hw hid hpw hrest =>
      rw [span_inj hn hc hw (hqe.trans hid.symm), hpw] at hp
      have hppid : p = pid := by injection hp
      exact hfresh (hppid ▸ List.mem_cons_self p ps')
  · obtain ⟨l₁, l₂, hsplit⟩ := List.append_of_mem hmem'
    have hsuf : ValidPath df l₂ c.span_id := validPath_suffix l₁ _ l₂ pid (hsplit ▸ hvp)
    cases hsuf with
    | root r _ hr hid hpr =>
      rw [span_inj hn hc hr hid.symm, hpr] at hp
      exact absurd hp (by simp)
    | child w _ p l₂' hw hid hpw hrest =>
      rw [span_inj hn hc hw hid.symm, hpw] at hp
      have hppid : p = pid := by injection hp
      apply hfresh
      rw [hsplit, ← hppid]
      exact List.mem_append_right _ (List.mem_cons_of_mem _ (List.mem_cons_self p l₂'))

lemma chainUp_comparable {df : List TSpan} (hn : (df.map TSpan.span_id).Nodup) :
    ∀ {q x : String}, ChainUp df q x → ∀ {y : String}, ChainUp df q y →
      x = y ∨ ChainUp df x y ∨ ChainUp df y x := by
  intro q x h1
  induction h1 with
  | base c q' pid hc hid hp =>
    intro y h2
    cases h2 with
    | base c' _ _ hc' hid' hp' =>
      rw [span_inj hn hc' hc (hid'.trans hid.symm), hp] at hp'
      have : pid = y := by injection hp'
      exact Or.inl this
    | step c' _ m _ hc' hid' hp' h' =>
      rw [span_inj hn hc' hc (hid'.trans hid.symm), hp] at hp'
      have hm : pid = m := by injection hp'
      exact Or.inr (Or.inl (hm ▸ h'))
  | step c q' m pid hc hid hp h ih =>
    intro y h2
    cases h2 with
    | base c' _ _ hc' hid' hp' =>
      rw [span_inj hn hc' hc (hid'.trans hid.symm), hp] at hp'
      have hm : m = y := by injection hp'
      exact Or.inr (Or.inr (hm ▸ h))
    | step c' _ m' _ hc' hid' hp' h' =>
      rw [span_inj hn hc' hc (hid'.trans hid.symm), hp] at hp'
      have hm : m = m' := by injection hp'
      exact ih (hm ▸ h')

lemma chainUp_iff_child {df : List TSpan} {q pid : String} :
    ChainUp df q pid ↔
      ∃ c ∈ df, c.parent_id = some pid ∧ (q = c.span_id ∨ ChainUp df q c.span_id) := by
  constructor
  · intro h
    induction h with
    | base c q' pid' hc hid hp => exact ⟨c, hc, hp, Or.inl hid.symm⟩
    | step c q' m pid' hc hid hp h ih =>
      obtain ⟨d, hd, hdp, hdisj⟩ := ih
      refine ⟨d, hd, hdp, Or.inr ?_⟩
      rcases hdisj with hqe | hch
      · exact ChainUp.base c q' d.span_id hc hid (by rw [hp, hqe])
      · exact ChainUp.step c q' m d.span_id hc hid hp hch
  · rintro ⟨c, hc, hp, hdisj⟩
    rcases hdisj with hqe | hch
    · exact ChainUp.base c q pid hc hqe.symm hp
    · exact chainUp_trans hch (ChainUp.base c c.span_id pid hc rfl hp)

lemma chainUp_to_path {df : List TSpan} : ∀ {q x : String}, ChainUp df q x →
    (∃ psx, ValidPath df psx x) → ∃ ps, ValidPath df ps q := by
  intro q x h
  induction h with
  | base c q' pid hc hid hp =>
    rintro ⟨psx, hpsx⟩
    exact ⟨pid :: psx, ValidPath.child c q' pid psx hc hid hp hpsx⟩
  | step c q' m pid hc hid hp h ih =>
    intro hex
    obtain ⟨psm, hpsm⟩ := ih hex
    exact ⟨m :: psm, ValidPath.child c q' m psm hc hid hp hpsm⟩

lemma validPath_exists_iff {df : List TSpan} {q : String} :
    (∃ ps, ValidPath df ps q) ↔
      ∃ r ∈ df, r.parent_id = none ∧ (q = r.span_id ∨ ChainUp df q r.span_id) := by
  constructor
  · rintro ⟨ps, h⟩
    induction h with
    | root r pid hr hid hp => exact ⟨r, hr, hp, Or.inl hid.symm⟩
    | child c pid p ps hc hid hp hrest ih =>
      obtain ⟨r, hr, hrp, hdisj⟩ := ih
      refine ⟨r, hr, hrp, Or.inr ?_⟩
      rcases hdisj with hqe | hch
      · exact ChainUp.base c pid r.span_id hc hid (by rw [hp, hqe])
      · exact ChainUp.step c pid p r.span_id hc hid hp hch
  · rintro ⟨r, hr, hrp, hdisj⟩
    rcases hdisj with hqe | hch
    · exact ⟨[], ValidPath.root r q hr hqe.symm hrp⟩
    · exact chainUp_to_path hch ⟨[], ValidPath.root r r.span_id hr rfl hrp⟩

lemma reachesRoot_sound {df : List TSpan} : ∀ (f : Nat) (q : String),
    reachesRoot df f q = true → ∃ ps, ValidPath df ps q := by
  intro f
  induction f with
  | zero => intro q h; simp [reachesRoot] at h
  | succ f ih =>
    intro q h
    simp only [reachesRoot] at h
    cases hfind : df.find? (fun s => s.span_id == q) with
    | none => rw [hfind] at h; simp at h
    | some c =>
      rw [hfind] at h
      replace h : (match c.parent_id with
        | none => true
        | some p => reachesRoot df f p) = true := h
      have hcdf := List.mem_of_find?_eq_some hfind
      have hcid : c.span_id = q := by simpa using List.find?_some hfind
      cases hp : c.parent_id with
      | none => exact ⟨[], ValidPath.root c q hcdf hcid hp⟩
      | some p =>
        rw [hp] at h
        replace h : reachesRoot df f p = true := h
        obtain ⟨ps, hps⟩ := ih p h
        exact ⟨p :: ps, ValidPath.child c q p ps hcdf hcid hp hps⟩

lemma reachesRoot_complete {df : List TSpan} (hn : (df.map TSpan.span_id).Nodup) :
    ∀ (ps : List String) (q : String) (f : Nat),
      ValidPath df ps q → ps.length < f → reachesRoot df f q = true := by
  intro ps
  induction ps with
  | nil =>
    intro q f h hf
    cases h with
    | root r _ hr hid hp =>
      cases f with
      | zero => omega
      | succ f' =>
        simp only [reachesRoot]
        rw [find_span hn hr hid]
        show (match r.parent_id with
          | none => true
          | some p => reachesRoot df f' p) = true
        rw [hp]
  | cons p ps ih =>
    intro q f h hf
    cases h with
    | child c pid2 p2 ps2 hc hid hp hrest =>
      cases f with
      | zero => omega
      | succ f' =>
        simp only [reachesRoot]
        rw [find_span hn hc hid]
        show (match c.parent_id with
          | none => true
          | some p => reachesRoot df f' p) = true
        rw [hp]
        exact ih p f' hrest (by simp at hf; omega)

open Classical in
lemma buildChildren_count {df : List TSpan} (hn : (df.map TSpan.span_id).Nodup) :
    ∀ (f : Nat) (ps : List String) (pid : String),
      ValidPath df ps pid →
      ∀ l : List TSpan, (∀ c ∈ l, c ∈ df ∧ c.parent_id = some pid) →
        (l.map TSpan.span_id).Nodup →
        ∀ (out : List String) (q : String), buildChildren df f l = some out →
          List.count q out =
            if (∃ c ∈ l, q = c.span_id ∨ ChainUp df q c.span_id) then 1 else 0 := by
  intro f
  induction f using Nat.strong_induction_on with
  | _ f IH =>
    intro ps pid hvp l
    induction l with
    | nil =>
      intro _ _ out q hout
      have hbc : buildChildren df f [] = some [] := by cases f <;> simp [buildChildren]
      rw [hbc] at hout
      have hnil : [] = out := by injection hout
      rw [← hnil]
      rw [if_neg (by rintro ⟨c, hc, _⟩; exact (List.not_mem_nil c) hc)]
      rfl
    | cons c cs ihl =>
      intro hl hndl out q hout
      rw [List.map_cons] at hndl
      have hnd1 := (List.nodup_cons.mp hndl).1
      have hnd2 := (List.nodup_cons.mp hndl).2
      cases f with
      | zero => simp [buildChildren] at hout
      | succ f' =>
        cases hsub : buildChildren df f' (childrenOf df c.span_id) with
        | none => rw [buildChildren, hsub] at hout; simp at hout
        | some sub =>
          cases hrest : buildChildren df (f' + 1) cs with
          | none => rw [buildChildren, hsub, hrest] at hout; simp at hout
          | some rest =>
            rw [buildChildren, hsub, hrest] at hout
            have hout' : c.span_id :: (sub ++ rest) = out := by injection hout
            rw [← hout']
            obtain ⟨hcdf, hcp⟩ := hl c (List.mem_cons_self _ _)
            have hvp' : ValidPath df (pid :: ps) c.span_id :=
              ValidPath.child c c.span_id pid ps hcdf rfl hcp hvp
            have hsubcount := IH f' (Nat.lt_succ_self f') (pid :: ps) c.span_id hvp'
              (childrenOf df c.span_id) (fun d hd => mem_childrenOf.mp hd)
              (childrenOf_nodup_ids hn c.span_id) sub q hsub
            have hsubiff : (∃ d ∈ childrenOf df c.span_id,
                q = d.span_id ∨ ChainUp df q d.span_id) ↔ ChainUp df q c.span_id := by
              rw [chainUp_iff_child]
              constructor
              · rintro ⟨d, hd, hdisj⟩
                exact ⟨d, (mem_childrenOf.mp hd).1, (mem_childrenOf.mp hd).2, hdisj⟩
              · rintro ⟨d, hd, hdp, hdisj⟩
                exact ⟨d, mem_childrenOf.mpr ⟨hd, hdp⟩, hdisj⟩
            simp only [hsubiff] at hsubcount
            have hrestcount := ihl (fun c' hc' => hl c' (List.mem_cons_of_mem _ hc'))
              hnd2 rest q hrest
            rw [List.count_cons, List.count_append]
            by_cases h1 : q = c.span_id
            · have hnochain : ¬ ChainUp df q c.span_id := by
                intro hch
                exact child_not_mem_path hn hvp hcdf hcp
                  (chainUp_mem_path hn hvp' (h1 ▸ hch))
              have hnorest : ¬ ∃ c' ∈ cs, q = c'.span_id ∨ ChainUp df q c'.span_id := by
                rintro ⟨c', hc', hdisj⟩
                obtain ⟨hc'df, hc'p⟩ := hl c' (List.mem_cons_of_mem _ hc')
                rcases hdisj with hqe' | hch'
                · have hcc : c = c' := span_inj hn hcdf hc'df (h1.symm.trans hqe')
                  apply hnd1
                  rw [hcc]
                  exact List.mem_map_of_mem _ hc'
                · exact child_not_mem_path hn hvp hc'df hc'p
                    (chainUp_mem_path hn hvp' (h1 ▸ hch'))
              have hbig : ∃ c' ∈ c :: cs, q = c'.span_id ∨ ChainUp df q c'.span_id :=
                ⟨c, List.mem_cons_self _ _, Or.inl h1⟩
              have hs0 : List.count q sub = 0 := by rw [hsubcount, if_neg hnochain]
              have hr0 : List.count q rest = 0 := by rw [hrestcount, if_neg hnorest]
              have hhead : (c.span_id == q) = true := by
                rw [beq_iff_eq]
                exact h1.symm
              rw [hs0, hr0, hhead, if_pos hbig]
              decide
            · have hbeq : (c.span_id == q) = false := by
                rw [beq_eq_false_iff_ne]
                exact fun h => h1 h.symm
              by_cases h2 : ChainUp df q c.span_id
              · have hnorest : ¬ ∃ c' ∈ cs, q = c'.span_id ∨ ChainUp df q c'.span_id := by
                  rintro ⟨c', hc', hdisj⟩
                  obtain ⟨hc'df, hc'p⟩ := hl c' (List.mem_cons_of_mem _ hc')
                  have hvpc' : ValidPath df (pid :: ps) c'.span_id :=
                    ValidPath.child c' c'.span_id pid ps hc'df rfl hc'p hvp
                  rcases hdisj with hqe' | hch'
                  · exact child_not_mem_path hn hvp hcdf hcp
                      (chainUp_mem_path hn hvpc' (hqe' ▸ h2))
                  · rcases chainUp_comparable hn h2 hch' with hqe2 | hch2 | hch2
                    · have hcc : c = c' := span_inj hn hcdf hc'df hqe2
                      apply hnd1
                      rw [hcc]
                      exact List.mem_map_of_mem _ hc'
                    · exact child_not_mem_path hn hvp hc'df hc'p
                        (chainUp_mem_path hn hvp' hch2)
                    · exact child_not_mem_path hn hvp hcdf hcp
                        (chainUp_mem_path hn hvpc' hch2)
                have hbig : ∃ c' ∈ c :: cs, q = c'.span_id ∨ ChainUp df q c'.span_id :=
                  ⟨c, List.mem_cons_self _ _, Or.inr h2⟩
                have hs1 : List.count q sub = 1 := by rw [hsubcount, if_pos h2]
                have hr0 : List.count q rest = 0 := by rw [hrestcount, if_neg hnorest]
                rw [hs1, hr0, hbeq, if_pos hbig]
                decide
              · have hiff : (∃ d ∈ c :: cs, q = d.span_id ∨ ChainUp df q d.span_id) ↔
                    (∃ d ∈ cs, q = d.span_id ∨ ChainUp df q d.span_id) := by
                  constructor
                  · rintro ⟨d, hd, hdisj⟩
                    rcases List.mem_cons.mp hd with rfl | hd'
                    · rcases hdisj with h | h
                      · exact absurd h h1
                      · exact absurd h h2
                    · exact ⟨d, hd', hdisj⟩
                  · rintro ⟨d, hd, hdisj⟩
                    exact ⟨d, List.mem_cons_of_mem _ hd, hdisj⟩
                have hs0 : List.count q sub = 0 := by rw [hsubcount, if_neg h2]
                by_cases h3 : ∃ d ∈ cs, q = d.span_id ∨ ChainUp df q d.span_id
                · have hr1 : List.count q rest = 1 := by rw [hrestcount, if_pos h3]
                  rw [hs0, hr1, hbeq, if_pos (hiff.mpr h3)]
                  decide
                · have hr0 : List.count q rest = 0 := by rw [hrestcount, if_neg h3]
                  rw [hs0, hr0, hbeq, if_neg (fun hh => h3 (hiff.mp hh))]
                  decide

open Classical in
lemma forestGo_count {df : List TSpan} (hn : (df.map TSpan.span_id).Nodup) :
    ∀ rl : List TSpan, (∀ r ∈ rl, r ∈ df ∧ r.parent_id = none) →
      (rl.map TSpan.span_id).Nodup →
      ∀ (out : List String) (q : String), forestGo df rl = some out →
        List.count q out =
          if (∃ r ∈ rl, q = r.span_id ∨ ChainUp df q r.span_id) then 1 else 0 := by
  intro rl
  induction rl with
  | nil =>
    intro _ _ out q hout
    have hnil : [] = out := by injection hout
    rw [← hnil, if_neg (by rintro ⟨r, hr, _⟩; exact (List.not_mem_nil r) hr)]
    rfl
  | cons r rs ih =>
    intro hl hnd out q hout
    rw [List.map_cons] at hnd
    have hnd1 := (List.nodup_cons.mp hnd).1
    have hnd2 := (List.nodup_cons.mp hnd).2
    obtain ⟨hrdf, hrp⟩ := hl r (List.mem_cons_self _ _)
    cases hsub : build_span_tree df df.length r.span_id with
    | none => rw [forestGo, hsub] at hout; simp at hout
    | some sub =>
      cases hrest : forestGo df rs with
      | none => rw [forestGo, hsub, hrest] at hout; simp at hout
      | some rest =>
        rw [forestGo, hsub, hrest] at hout
        have hout' : r.span_id :: (sub ++ rest) = out := by injection hout
        rw [← hout']
        have hvp : ValidPath df [] r.span_id := ValidPath.root r r.span_id hrdf rfl hrp
        have hsubcount := buildChildren_count hn df.length [] r.span_id hvp
          (childrenOf df r.span_id) (fun d hd => mem_childrenOf.mp hd)
          (childrenOf_nodup_ids hn r.span_id) sub q hsub
        have hsubiff : (∃ d ∈ childrenOf df r.span_id,
            q = d.span_id ∨ ChainUp df q d.span_id) ↔ ChainUp df q r.span_id := by
          rw [chainUp_iff_child]
          constructor
          · rintro ⟨d, hd, hdisj⟩
            exact ⟨d, (mem_childrenOf.mp hd).1, (mem_childrenOf.mp hd).2, hdisj⟩
          · rintro ⟨d, hd, hdp, hdisj⟩
            exact ⟨d, mem_childrenOf.mpr ⟨hd, hdp⟩, hdisj⟩
        simp only [hsubiff] at hsubcount
        have hrestcount := ih (fun x hx => hl x (List.mem_cons_of_mem _ hx)) hnd2 rest q hrest
        rw [List.count_cons, List.count_append]
        by_cases h1 : q = r.span_id
        · have hnochain : ¬ ChainUp df q r.span_id := fun hch =>
            chainUp_of_root hn hrdf hrp (h1 ▸ hch)
          have hnorest : ¬ ∃ r' ∈ rs, q = r'.span_id ∨ ChainUp df q r'.span_id := by
            rintro ⟨r', hr', hdisj⟩
            obtain ⟨hr'df, hr'p⟩ := hl r' (List.mem_cons_of_mem _ hr')
            rcases hdisj with hqe | hch
            · have hrr : r = r' := span_inj hn hrdf hr'df (h1.symm.trans hqe)
              apply hnd1
              rw [hrr]
              exact List.mem_map_of_mem _ hr'
            · exact chainUp_of_root hn hrdf hrp (h1 ▸ hch)
          have hbig : ∃ r' ∈ r :: rs, q = r'.span_id ∨ ChainUp df q r'.span_id :=
            ⟨r, List.mem_cons_self _ _, Or.inl h1⟩
          have hs0 : List.count q sub = 0 := by rw [hsubcount, if_neg hnochain]
          have hr0 : List.count q rest = 0 := by rw [hrestcount, if_neg hnorest]
          have hhead : (r.span_id == q) = true := by
            rw [beq_iff_eq]
            exact h1.symm
          rw [hs0, hr0, hhead, if_pos hbig]
          decide
        · have hbeq : (r.span_id == q) = false := by
            rw [beq_eq_false_iff_ne]
            exact fun h => h1 h.symm
          by_cases h2 : ChainUp df q r.span_id
          · have hnorest : ¬ ∃ r' ∈ rs, q = r'.span_id ∨ ChainUp df q r'.span_id := by
              rintro ⟨r', hr', hdisj⟩
              obtain ⟨hr'df, hr'p⟩ := hl r' (List.mem_cons_of_mem _ hr')
              rcases hdisj with hqe | hch
              · exact chainUp_of_root hn hr'df hr'p (hqe ▸ h2)
              · rcases chainUp_comparable hn h2 hch with hqe2 | hch2 | hch2
                · have hrr : r = r' := span_inj hn hrdf hr'df hqe2
                  apply hnd1
                  rw [hrr]
                  exact List.mem_map_of_mem _ hr'
                · exact chainUp_of_root hn hrdf hrp hch2
                · exact chainUp_of_root hn hr'df hr'p hch2
            have hbig : ∃ r' ∈ r :: rs, q = r'.span_id ∨ ChainUp df q r'.span_id :=
              ⟨r, List.mem_cons_self _ _, Or.inr h2⟩
            have hs1 : List.count q sub = 1 := by rw [hsubcount, if_pos h2]
            have hr0 : List.count q rest = 0 := by rw [hrestcount, if_neg hnorest]
            rw [hs1, hr0, hbeq, if_pos hbig]
            decide
          · have hiff : (∃ d ∈ r :: rs, q = d.span_id ∨ ChainUp df q d.span_id) ↔
                (∃ d ∈ rs, q = d.span_id ∨ ChainUp df q d.span_id) := by
              constructor
              · rintro ⟨d, hd, hdisj⟩
                rcases List.mem_cons.mp hd with rfl | hd'
                · rcases hdisj with h | h
                  · exact absurd h h1
                  · exact absurd h h2
                · exact ⟨d, hd', hdisj⟩
              · rintro ⟨d, hd, hdisj⟩
                exact ⟨d, List.mem_cons_of_mem _ hd, hdisj⟩
            have hs0 : List.count q sub = 0 := by rw [hsubcount, if_neg h2]
            by_cases h3 : ∃ d ∈ rs, q = d.span_id ∨ ChainUp df q d.span_id
            · have hr1 : List.count q rest = 1 := by rw [hrestcount, if_pos h3]
              rw [hs0, hr1, hbeq, if_pos (hiff.mpr h3)]
              decide
            · have hr0 : List.count q rest = 0 := by rw [hrestcount, if_neg h3]
              rw [hs0, hr0, hbeq, if_neg (fun hh => h3 (hiff.mp hh))]
              decide

/-- C1 counterexample: on the singleton input whose only span is
self-parenting (`parent_id == span_id == "A"`), the emitted forest is
empty — the cyclic span is silently dropped (it is neither treated as a
root nor emitted as a child), so it appears zero times, not exactly
once. -/
theorem c1_self_parenting_span_dropped_cex :
    span_forest [⟨"A", some "A", none⟩] = some [] ∧
    "A" ∈ ([⟨"A", some "A", none⟩] : List TSpan).map TSpan.span_id := by
  constructor
  · rfl
  · simp

/-- C1 amended: on any span set with duplicate-free span ids the tree
builder terminates — recursion depth is bounded by the number of spans
because a cycle is unreachable from the null-parent roots — and each id
occurs in the emitted forest exactly once when its parent chain reaches a
null-parent root of the set, and zero times otherwise (so spans inside a
parent cycle, self-parenting ones included, and spans whose chain ends in
a dangling reference are dropped rather than treated as roots). -/
theorem c1_span_forest_characterization (df : List TSpan)
    (hn : (df.map TSpan.span_id).Nodup) :
    (span_forest df).isSome ∧
    ∀ out : List String, span_forest df = some out → ∀ q : String,
      List.count q out = if reachesRoot df df.length q then 1 else 0 := by
  have hroots : ∀ r ∈ df.filter (fun s => s.parent_id.isNone), r ∈ df ∧ r.parent_id = none := by
    intro r hr
    have h1 := List.mem_filter.mp hr
    exact ⟨h1.1, Option.isNone_iff_eq_none.mp (by simpa using h1.2)⟩
  constructor
  · exact forestGo_isSome hn _ hroots
  · intro out hout q
    have hnodup_roots : ((df.filter (fun s => s.parent_id.isNone)).map TSpan.span_id).Nodup :=
      hn.sublist ((List.filter_sublist df).map TSpan.span_id)
    have hcount := forestGo_count hn _ hroots hnodup_roots out q hout
    rw [hcount]
    by_cases hb : reachesRoot df df.length q = true
    · rw [if_pos hb, if_pos ?_]
      obtain ⟨ps, hps⟩ := reachesRoot_sound df.length q hb
      obtain ⟨r, hrdf, hrp, hdisj⟩ := validPath_exists_iff.mp ⟨ps, hps⟩
      exact ⟨r, List.mem_filter.mpr ⟨hrdf, by simp [hrp]⟩, hdisj⟩
    · rw [if_neg hb, if_neg ?_]
      rintro ⟨r, hrfil, hdisj⟩
      obtain ⟨hrdf, hrp⟩ := hroots r hrfil
      obtain ⟨ps, hps⟩ := validPath_exists_iff.mpr ⟨r, hrdf, hrp, hdisj⟩
      exact hb (reachesRoot_complete hn ps q df.length hps (validPath_length hn hps))

/-- Witness for C1 on a two-span set (root `"A"` with child `"B"`). -/
theorem c1_span_forest_characterization_witness :
    (([⟨"A", none, none⟩, ⟨"B", some "A", none⟩] : List TSpan).map TSpan.span_id).Nodup ∧
    (span_forest [⟨"A", none, none⟩, ⟨"B", some "A", none⟩]).isSome :=
  ⟨by decide,
    (c1_span_forest_characterization [⟨"A", none, none⟩, ⟨"B", some "A", none⟩] (by decide)).1⟩
